import Mathlib

/-!
Verification development for the Creditstar-Kudos Slack bot (src/app.js and
the PostgreSQL variant src/unnamed/part_000).

Strings are modelled as `List Char`.  Timestamps and clock instants are
modelled as `Nat` milliseconds (the source stores ISO-8601 strings whose
lexicographic order agrees with instant order, and compares `Date` values).
The regular expressions of the source are small and fixed, so their
left-to-right, greedy, non-overlapping `matchAll` semantics is implemented
directly as a fuel-indexed scanner (fuel keeps every definition structurally
recursive and kernel-computable).

Effectful collaborators (Slack SDK calls, the persistence backend, the user
directory) are modelled by explicit parameters: a member list stands for the
directory response, boolean flags stand for "this awaited call succeeded /
threw", and handler results carry the post-state, the post-history of the
store, and the message that was (or was not) announced publicly.
-/

abbrev Str : Type := List Char

/-- One member of the workspace directory (`result.members[i]` of
`client.users.list()`); `display_name` stands for `profile.display_name`. -/
structure Member where
  id : Str
  name : Str
  display_name : Str
deriving DecidableEq

/-- One kudos event, as recorded by `recordKudos` (app.js lines 57-71). -/
structure KudosEvent where
  timestamp : Nat
  sender_id : Str
  recipient_ids : List Str
  message : Str
  channel_id : Str
deriving DecidableEq

/-! ## JavaScript string helpers -/

/-- Whitespace for `String.prototype.trim` (the characters that actually
occur in this code base's inputs). -/
def isWS (c : Char) : Bool := c = ' ' || c = '\t' || c = '\n' || c = '\r'

/-- `text.trim()`. -/
def jsTrim (s : Str) : Str :=
  ((s.dropWhile isWS).reverse.dropWhile isWS).reverse

/-- Does `pat` occur in `s` starting at index `q`? -/
def occursAtB (pat s : Str) (q : Nat) : Bool :=
  decide ((s.drop q).take pat.length = pat)

/-- Scan downward from index `n` for the last occurrence of `pat`. -/
def lastIndexOfAux (s pat : Str) : Nat → Option Nat
  | 0 => if occursAtB pat s 0 then some 0 else none
  | n + 1 => if occursAtB pat s (n + 1) then some (n + 1) else lastIndexOfAux s pat n

/-- `s.lastIndexOf(pat)`: index of the last occurrence, `-1` if absent. -/
def jsLastIndexOf (s pat : Str) : Int :=
  match lastIndexOfAux s pat s.length with
  | some i => (i : Int)
  | none => -1

/-- `s.substring(i)` for a possibly negative start (clamped to 0). -/
def jsSubstringFrom (s : Str) (i : Int) : Str := s.drop i.toNat

/-- `id.replace(/<@|>/g, '')` (app.js line 220): delete every occurrence of
the two-character substring `<@` and of `>`, scanning left to right. -/
def stripMention : Str → Str
  | [] => []
  | '<' :: '@' :: rest => stripMention rest
  | '>' :: rest => stripMention rest
  | c :: rest => c :: stripMention rest

/-! ## The mention scanner (regex `/<@([A-Z0-9]+)(\|[^>]+)?>/g`) -/

/-- Character class `[A-Z0-9]`. -/
def isIdChar (c : Char) : Bool := ('A' ≤ c && c ≤ 'Z') || ('0' ≤ c && c ≤ '9')

/-- Character class `\w`, i.e. `[A-Za-z0-9_]`. -/
def isWordChar (c : Char) : Bool :=
  ('a' ≤ c && c ≤ 'z') || ('A' ≤ c && c ≤ 'Z') || ('0' ≤ c && c ≤ '9') || c = '_'

/-- After the optional `\|[^>]+` part has been isolated (`ds`), the regex
needs a closing `>`: `close` is what remains of the input after `ds`. -/
def mentionClose (ids ds : Str) : Str → Option Str
  | [] => none
  | g :: _ => if g = '>' then some ('<' :: '@' :: (ids ++ '|' :: (ds ++ ['>']))) else none

/-- After `<@` and the greedy id run (`ids`), the regex needs either a `>`
or a `|`-prefixed display part ending in `>`; `tail` is what remains of the
input after `ids`. -/
def mentionTail (ids : Str) : Str → Option Str
  | [] => none
  | d :: r2 =>
    if d = '>' then some ('<' :: '@' :: (ids ++ ['>']))
    else if d = '|' then
      let ds := r2.takeWhile (fun c => !(c = '>'))
      if ds = [] then none
      else mentionClose ids ds (r2.dropWhile (fun c => !(c = '>')))
    else none

/-- Try to match `<@([A-Z0-9]+)(\|[^>]+)?>` at the head of `s`; return the
whole match (`match[0]`).  Greedy runs with no profitable backtracking make
the regex deterministic, so a direct functional reading is exact. -/
def matchMentionAt (s : Str) : Option Str :=
  match s with
  | c1 :: c2 :: rest =>
    if c1 = '<' ∧ c2 = '@' then
      let ids := rest.takeWhile isIdChar
      if ids = [] then none else mentionTail ids (rest.dropWhile isIdChar)
    else none
  | _ => none

/-- Well-formed mention token: exactly the strings `matchMentionAt` returns. -/
def WFTok (tok : Str) : Prop :=
  ∃ ids, ids ≠ [] ∧ (∀ c ∈ ids, isIdChar c = true) ∧
    (tok = '<' :: '@' :: (ids ++ ['>']) ∨
     ∃ ds, ds ≠ [] ∧ (∀ c ∈ ds, c ≠ '>') ∧
       tok = '<' :: '@' :: (ids ++ '|' :: (ds ++ ['>'])))

/-- `text.matchAll` for the mention regex, with fuel; returns the list of
(match text, match index) pairs in order of first appearance. -/
def scanMentionsFuel : Nat → Str → Nat → List (Str × Nat)
  | 0, _, _ => []
  | _, [], _ => []
  | fuel + 1, c :: rest, i =>
    match matchMentionAt (c :: rest) with
    | some tok => (tok, i) :: scanMentionsFuel fuel ((c :: rest).drop tok.length) (i + tok.length)
    | none => scanMentionsFuel fuel rest (i + 1)

/-- All mention-regex matches of `s`, starting from base index `i`. -/
def scanMentions (s : Str) (i : Nat) : List (Str × Nat) :=
  scanMentionsFuel s.length s i

/-- `text.matchAll(/@(\w+)/g)` with fuel: each pair is (`match[0]`, index);
`match[1]` (the username) is `match[0]` without its leading `@`. -/
def scanPlainFuel : Nat → Str → Nat → List (Str × Nat)
  | 0, _, _ => []
  | _, [], _ => []
  | fuel + 1, c :: rest, i =>
    if c = '@' then
      let run := rest.takeWhile isWordChar
      if run = [] then scanPlainFuel fuel rest (i + 1)
      else ('@' :: run, i) :: scanPlainFuel fuel (rest.drop run.length) (i + 1 + run.length)
    else scanPlainFuel fuel rest (i + 1)

/-- All plain-mention matches of `s`, starting from base index `i`. -/
def scanPlain (s : Str) (i : Nat) : List (Str × Nat) :=
  scanPlainFuel s.length s i

/-! ## Rate limiter (module state `userCooldowns` / `usersProcessing`) -/

def COOLDOWN_MS : Nat := 3000

structure LimiterState where
  userCooldowns : List (Str × Nat)
  usersProcessing : List Str
deriving DecidableEq

/-- `userCooldowns.get(userId)`. -/
def lookupCooldown (m : List (Str × Nat)) (k : Str) : Option Nat :=
  (m.find? (fun e => decide (e.1 = k))).map Prod.snd

/-- `userCooldowns.set(userId, now)`: replace in place, else append. -/
def setCooldown : List (Str × Nat) → Str → Nat → List (Str × Nat)
  | [], k, v => [(k, v)]
  | e :: m, k, v => if e.1 = k then (k, v) :: m else e :: setCooldown m k v

inductive AcquireResult where
  | busy : AcquireResult
  | coolingDown (remainingSeconds : Nat) : AcquireResult
  | allowed (st1 : LimiterState) : AcquireResult
deriving DecidableEq

/-- Rate-limiting admission, app.js lines 100-122: the `usersProcessing`
guard, then the cooldown check `lastUsed && now - lastUsed < COOLDOWN_MS`,
then locking.  `userCooldowns.get` yields `undefined` for an absent user and
both `undefined` and `0` are falsy in JavaScript, so the absent case is
modelled by defaulting the stored instant to 0, observationally identical.
The displayed wait is `Math.ceil(remaining_ms / 1000)`. -/
def tryAcquire (st : LimiterState) (userId : Str) (now : Nat) : AcquireResult :=
  if userId ∈ st.usersProcessing then .busy
  else
    let lastUsed := (lookupCooldown st.userCooldowns userId).getD 0
    if 0 < lastUsed ∧ now - lastUsed < COOLDOWN_MS then
      .coolingDown ((COOLDOWN_MS - (now - lastUsed) + 999) / 1000)
    else .allowed ⟨setCooldown st.userCooldowns userId now, userId :: st.usersProcessing⟩

/-- `usersProcessing.delete(userId)` in the `finally` block. -/
def release (st : LimiterState) (u : Str) : LimiterState :=
  ⟨st.userCooldowns, st.usersProcessing.filter (fun x => decide (¬(x = u)))⟩

/-! ## Recipient formatting and announcement -/

/-- App.js lines 199-209: "X" / "X and Y" / "X, Y, and Z". -/
def formatRecipients (l : List Str) : Str :=
  if l.length = 1 then l.getD 0 []
  else if l.length = 2 then l.getD 0 [] ++ (" and ").data ++ l.getD 1 []
  else List.intercalate ((", ").data) l.dropLast ++ ((", and ").data) ++ l.getLastD []

/-- The public announcement text (app.js line 213). -/
def announceText (userId recipientsText message : Str) : Str :=
  ("🙌 _*High Five* from <@").data ++ userId ++ (">:_\n>*").data ++
    recipientsText ++ ("*  _").data ++ message ++ ("_").data

/-! ## Parsing the command text (app.js lines 125-180) -/

/-- `result.members.find(m => m.name === username || m.profile.display_name === username)`. -/
def findMember (members : List Member) (username : Str) : Option Member :=
  members.find? (fun m => decide (m.name = username) || decide (m.display_name = username))

/-- The resolution loop over plain-mention usernames: push `<@id>` for each
resolved name, abort at the first unresolvable one. -/
def resolveLoop (members : List Member) : List Str → Except Str (List Str)
  | [] => .ok []
  | u :: rest =>
    match findMember members u with
    | some m => (resolveLoop members rest).map (fun rs => ('<' :: '@' :: (m.id ++ ['>'])) :: rs)
    | none => .error u

inductive ParseOutcome where
  | ok (recipients : List Str) (message : Str)
  | userNotFound (username : Str)
  | lookupError
deriving DecidableEq

/-- The mention parser, operating on the already-trimmed command text.
`lookupOk = false` models `getUserList` throwing (caught at lines 171-178). -/
def parseRecipients (text : Str) (members : List Member) (lookupOk : Bool) : ParseOutcome :=
  let proper := scanMentions text 0
  if 0 < proper.length then
    let lastTok := (proper.getLastD ([], 0)).1
    .ok (proper.map Prod.fst)
      (jsTrim (jsSubstringFrom text (jsLastIndexOf text lastTok + lastTok.length)))
  else
    let plain := scanPlain text 0
    if 0 < plain.length then
      if lookupOk then
        match resolveLoop members (plain.map (fun m => m.1.drop 1)) with
        | .error u => .userNotFound u
        | .ok recips =>
          let lastTok := (plain.getLastD ([], 0)).1
          .ok recips
            (jsTrim (jsSubstringFrom text (jsLastIndexOf text lastTok + lastTok.length)))
      else .lookupError
    else .ok [] []

/-! ## The text-command handler (app.js lines 94-233) -/

inductive TextOutcome where
  | busyWarning
  | cooldownWarning (remainingSeconds : Nat)
  | userNotFound (username : Str)
  | lookupError
  | noRecipients
  | emptyMessage
  | genericError
  | posted
deriving DecidableEq

structure TextResult where
  state : LimiterState
  history : List KudosEvent
  announced : Option Str
  outcome : TextOutcome
deriving DecidableEq

/-- `handleTextKudosCommand`: rate limiting, parse, validation, public
announcement, record; the `finally` releases the in-flight lock on every
path past the lock.  `sayOk = false` models the `say` call throwing (caught
at lines 224-229, before anything was recorded). -/
def handleTextKudosCommand (st : LimiterState) (history : List KudosEvent)
    (userId cmdText channelId : Str) (members : List Member)
    (now : Nat) (lookupOk sayOk : Bool) : TextResult :=
  match tryAcquire st userId now with
  | .busy => ⟨st, history, none, .busyWarning⟩
  | .coolingDown s => ⟨st, history, none, .cooldownWarning s⟩
  | .allowed st1 =>
    match parseRecipients (jsTrim cmdText) members lookupOk with
    | .userNotFound u => ⟨release st1 userId, history, none, .userNotFound u⟩
    | .lookupError => ⟨release st1 userId, history, none, .lookupError⟩
    | .ok recips msg =>
      if recips.length = 0 then ⟨release st1 userId, history, none, .noRecipients⟩
      else if msg = [] then ⟨release st1 userId, history, none, .emptyMessage⟩
      else if sayOk then
        ⟨release st1 userId,
          history ++ [⟨now, userId, recips.map stripMention, msg, channelId⟩],
          some (announceText userId (formatRecipients recips) msg), .posted⟩
      else ⟨release st1 userId, history, none, .genericError⟩

/-! ## The modal-submission handler (app.js lines 324-393) -/

inductive ModalOutcome where
  | droppedBusy
  | droppedCooldown
  | noRecipients
  | emptyMessage
  | genericError
  | posted
deriving DecidableEq

structure ModalResult where
  state : LimiterState
  history : List KudosEvent
  announced : Option Str
  outcome : ModalOutcome
deriving DecidableEq

/-- Body of the modal handler after the lock is taken. -/
def modalLocked (st1 : LimiterState) (history : List KudosEvent)
    (userId channelId : Str) (recipients : List Str) (message : Str)
    (now : Nat) (postOk : Bool) : ModalResult :=
  if recipients.length = 0 then ⟨release st1 userId, history, none, .noRecipients⟩
  else if jsTrim message = [] then ⟨release st1 userId, history, none, .emptyMessage⟩
  else if postOk then
    ⟨release st1 userId, history ++ [⟨now, userId, recipients, message, channelId⟩],
      some (announceText userId
        (formatRecipients (recipients.map (fun id => '<' :: '@' :: (id ++ ['>'])))) message),
      .posted⟩
  else ⟨release st1 userId, history, none, .genericError⟩

/-- `app.view('kudos_modal')`: same rate limiting (silently dropped), then
validation, announcement with `<@id>` mentions, and recording of the BARE
selected user ids. -/
def handleModalSubmission (st : LimiterState) (history : List KudosEvent)
    (userId channelId : Str) (recipients : List Str) (message : Str)
    (now : Nat) (postOk : Bool) : ModalResult :=
  match tryAcquire st userId now with
  | .busy => ⟨st, history, none, .droppedBusy⟩
  | .coolingDown _ => ⟨st, history, none, .droppedCooldown⟩
  | .allowed st1 => modalLocked st1 history userId channelId recipients message now postOk

/-! ## Kudos store (app.js lines 34-71 and 425-428) -/

/-- `recordKudos` appends one entry to the loaded history. -/
def recordKudosEntry (history : List KudosEvent) (e : KudosEvent) : List KudosEvent :=
  history ++ [e]

/-- Appending a batch of events one at a time. -/
def appendEvents (history : List KudosEvent) (evs : List KudosEvent) : List KudosEvent :=
  evs.foldl recordKudosEntry history

/-- The `/stats` window filter: keep entries with `entryDate >= cutoff`. -/
def queryRecentSince (history : List KudosEvent) (cutoff : Nat) : List KudosEvent :=
  history.filter (fun e => decide (cutoff ≤ e.timestamp))

/-! ## Stats aggregation (app.js lines 439-459) -/

/-- `counts[k] = (counts[k] || 0) + 1` on a JavaScript object: increment in
place if the key exists, otherwise append (insertion order is preserved for
non-numeric string keys). -/
def bumpCount : List (Str × Nat) → Str → List (Str × Nat)
  | [], k => [(k, 1)]
  | e :: rest, k => if e.1 = k then (e.1, e.2 + 1) :: rest else e :: bumpCount rest k

/-- Read a counter back (0 if absent). -/
def lookupCount (m : List (Str × Nat)) (k : Str) : Nat :=
  ((m.find? (fun e => decide (e.1 = k))).map Prod.snd).getD 0

/-- `giverCounts`: one per event for its sender. -/
def giverCounts (evs : List KudosEvent) : List (Str × Nat) :=
  evs.foldl (fun m e => bumpCount m e.sender_id) []

/-- `receiverCounts`: one per occurrence in any event's recipient list. -/
def receiverCounts (evs : List KudosEvent) : List (Str × Nat) :=
  evs.foldl (fun m e => e.recipient_ids.foldl bumpCount m) []

/-- Comparator `(a, b) => b[1] - a[1]` as an order: descending by count. -/
def countGE (a b : Str × Nat) : Prop := b.2 ≤ a.2

instance : DecidableRel countGE := fun a b => Nat.decLe b.2 a.2

instance : IsTotal (Str × Nat) countGE :=
  ⟨fun a b => (Nat.le_total b.2 a.2).imp id id⟩

instance : IsTrans (Str × Nat) countGE :=
  ⟨fun _ _ _ h1 h2 => Nat.le_trans h2 h1⟩

/-- `Object.entries(counts).sort((a, b) => b[1] - a[1])`: a stable sort
descending by count (ECMAScript sort is stable). -/
def sortDesc (l : List (Str × Nat)) : List (Str × Nat) :=
  List.insertionSort countGE l

/-- `.slice(0, 5)` after sorting. -/
def topFive (l : List (Str × Nat)) : List (Str × Nat) := (sortDesc l).take 5

def topGivers (evs : List KudosEvent) : List (Str × Nat) := topFive (giverCounts evs)

def topReceivers (evs : List KudosEvent) : List (Str × Nat) := topFive (receiverCounts evs)

/-! ## The /stats command (app.js lines 400-507) -/

inductive StatsOutcome where
  | denied
  | emptyState
  | report (givers receivers : List (Str × Nat)) (total : Nat)
deriving DecidableEq

/-- The fixed empty-state response text (app.js line 432). -/
def emptyStateMessage : Str :=
  ("📊 *Kudos Statistics (Last 3 Months)*\n\nNo kudos recorded yet. Be the first to give kudos!").data

/-- `/stats`: authorization gate, trailing-window filter (the 3-month cutoff
instant is computed by the host date library and passed in here), empty
state, or the two leaderboards. -/
def statsCommand (authorizedUsers : List Str) (userId : Str)
    (history : List KudosEvent) (cutoff : Nat) : StatsOutcome :=
  if 0 < authorizedUsers.length ∧ userId ∉ authorizedUsers then .denied
  else
    let recentKudos := queryRecentSince history cutoff
    if recentKudos.length = 0 then .emptyState
    else .report (topFive (giverCounts recentKudos)) (topFive (receiverCounts recentKudos))
      recentKudos.length

/-! ## User directory cache (app.js lines 14-17 and 73-91) -/

def CACHE_DURATION : Nat := 5 * 60 * 1000

structure CacheState where
  userListCache : Option (List Member)
  userListCacheTime : Option Nat
deriving DecidableEq

structure GetResult where
  result : List Member
  state : CacheState
  fetched : Bool
deriving DecidableEq

/-- `getUserList`: serve the cache while
`userListCache && userListCacheTime && now - userListCacheTime < CACHE_DURATION`,
otherwise fetch, store with `userListCacheTime = now`, and return.  A null
`userListCacheTime` and a stored instant 0 are both falsy in JavaScript, so
the absent instant is modelled by defaulting to 0, observationally
identical.  `fetchResult` stands for what `client.users.list()` would
return; `fetched` records whether it was called. -/
def getUserList (st : CacheState) (now : Nat) (fetchResult : List Member) : GetResult :=
  if (¬st.userListCache = none) ∧ 0 < st.userListCacheTime.getD 0 ∧
      now - st.userListCacheTime.getD 0 < CACHE_DURATION then
    ⟨st.userListCache.getD [], st, false⟩
  else ⟨fetchResult, ⟨some fetchResult, some now⟩, true⟩

/-! ## Scanner lemmas -/

theorem takeWhile_app {α : Type} {p : α → Bool} {l : List α} (r : List α) (y : α)
    (hl : ∀ c ∈ l, p c = true) (hy : p y = false) :
    (l ++ y :: r).takeWhile p = l := by
  induction l with
  | nil => simp [List.takeWhile, hy]
  | cons a t ih =>
    have ha : p a = true := hl a (by simp)
    simp only [List.cons_append, List.takeWhile_cons, ha, if_true]
    rw [ih (fun c hc => hl c (by simp [hc]))]

theorem dropWhile_app {α : Type} {p : α → Bool} {l : List α} (r : List α) (y : α)
    (hl : ∀ c ∈ l, p c = true) (hy : p y = false) :
    (l ++ y :: r).dropWhile p = y :: r := by
  induction l with
  | nil => simp [List.dropWhile, hy]
  | cons a t ih =>
    have ha : p a = true := hl a (by simp)
    simp only [List.cons_append, List.dropWhile_cons, ha, if_true]
    exact ih (fun c hc => hl c (by simp [hc]))

theorem isIdChar_gt : isIdChar '>' = false := by decide

theorem isIdChar_pipe : isIdChar '|' = false := by decide

theorem matchMentionAt_eq_some {s tok : Str} (h : matchMentionAt s = some tok) :
    WFTok tok ∧ ∃ r, s = tok ++ r := by
  match s with
  | [] => exact absurd h (by simp [matchMentionAt])
  | [c] => exact absurd h (by simp [matchMentionAt])
  | c1 :: c2 :: rest =>
    rw [matchMentionAt] at h
    by_cases h12 : c1 = '<' ∧ c2 = '@'
    · rw [if_pos h12] at h
      obtain ⟨h1, h2⟩ := h12
      subst h1; subst h2
      by_cases hids : rest.takeWhile isIdChar = []
      · simp [hids] at h
      · rw [if_neg hids] at h
        have hidc : ∀ c ∈ rest.takeWhile isIdChar, isIdChar c = true :=
          fun c hc => List.mem_takeWhile_imp hc
        have hsplit : rest.takeWhile isIdChar ++ rest.dropWhile isIdChar = rest :=
          List.takeWhile_append_dropWhile isIdChar rest
        rcases hdrop : rest.dropWhile isIdChar with _ | ⟨d, r2⟩
        · rw [hdrop] at h; exact absurd h (by simp [mentionTail])
        · rw [hdrop] at h
          rw [mentionTail] at h
          by_cases hd1 : d = '>'
          · rw [if_pos hd1] at h
            have htok := Option.some.inj h
            refine ⟨⟨rest.takeWhile isIdChar, hids, hidc, Or.inl htok.symm⟩, r2, ?_⟩
            rw [← htok]
            have hr : rest = rest.takeWhile isIdChar ++ '>' :: r2 := by
              conv_lhs => rw [← hsplit, hdrop, hd1]
            conv_lhs => rw [hr]
            simp
          · rw [if_neg hd1] at h
            by_cases hd2 : d = '|'
            · rw [if_pos hd2] at h
              by_cases hds : r2.takeWhile (fun c => !(c = '>')) = []
              · simp [hds] at h
              · rw [if_neg hds] at h
                rcases hdrop2 : r2.dropWhile (fun c => !(c = '>')) with _ | ⟨g, r3⟩
                · rw [hdrop2] at h; exact absurd h (by simp [mentionClose])
                · rw [hdrop2, mentionClose] at h
                  by_cases hg : g = '>'
                  · rw [if_pos hg] at h
                    have htok := Option.some.inj h
                    have hdsc : ∀ c ∈ r2.takeWhile (fun c => !(c = '>')), c ≠ '>' := by
                      intro c hc
                      have hpc := List.mem_takeWhile_imp hc
                      simpa using hpc
                    refine ⟨⟨rest.takeWhile isIdChar, hids, hidc,
                      Or.inr ⟨r2.takeWhile (fun c => !(c = '>')), hds, hdsc, htok.symm⟩⟩, r3, ?_⟩
                    rw [← htok]
                    have hr2 : r2 = r2.takeWhile (fun c => !(c = '>')) ++ '>' :: r3 := by
                      conv_lhs =>
                        rw [← List.takeWhile_append_dropWhile (p := fun c => !(c = '>')) (l := r2)]
                      rw [hdrop2, hg]
                    have hr : rest = rest.takeWhile isIdChar ++ '|' :: r2 := by
                      conv_lhs => rw [← hsplit, hdrop, hd2]
                    conv_lhs => rw [hr, hr2]
                    simp
                  · rw [if_neg hg] at h; exact absurd h (by simp)
            · rw [if_neg hd2] at h; exact absurd h (by simp)
    · rw [if_neg h12] at h; exact absurd h (by simp)

theorem matchMentionAt_of_WFTok {tok : Str} (h : WFTok tok) (r : Str) :
    matchMentionAt (tok ++ r) = some tok := by
  obtain ⟨ids, hne, hid, hcase⟩ := h
  rcases hcase with htok | ⟨ds, hdne, hds, htok⟩
  · subst htok
    have e1 : ('<' :: '@' :: (ids ++ ['>'])) ++ r = '<' :: '@' :: (ids ++ '>' :: r) := by simp
    rw [e1, matchMentionAt]
    rw [if_pos ⟨rfl, rfl⟩]
    rw [takeWhile_app r '>' hid isIdChar_gt, dropWhile_app r '>' hid isIdChar_gt]
    rw [if_neg hne, mentionTail, if_pos rfl]
  · subst htok
    have e1 : ('<' :: '@' :: (ids ++ '|' :: (ds ++ ['>']))) ++ r =
        '<' :: '@' :: (ids ++ '|' :: (ds ++ '>' :: r)) := by simp
    rw [e1, matchMentionAt]
    rw [if_pos ⟨rfl, rfl⟩]
    rw [takeWhile_app _ '|' hid isIdChar_pipe, dropWhile_app _ '|' hid isIdChar_pipe]
    rw [if_neg hne, mentionTail, if_neg (by decide), if_pos rfl]
    have hdsp : ∀ c ∈ ds, (fun c => !(c = '>')) c = true := by
      intro c hc; simpa using hds c hc
    rw [takeWhile_app _ '>' hdsp (by simp), dropWhile_app _ '>' hdsp (by simp)]
    rw [if_neg hdne, mentionClose, if_pos rfl]

theorem WFTok_ne_nil {tok : Str} (h : WFTok tok) : tok ≠ [] := by
  obtain ⟨ids, _, _, hcase⟩ := h
  rcases hcase with htok | ⟨ds, _, _, htok⟩ <;> simp [htok]

theorem WFTok_split {tok : Str} (h : WFTok tok) :
    ∃ body, tok = body ++ ['>'] ∧ '>' ∉ body := by
  obtain ⟨ids, hne, hid, hcase⟩ := h
  have hidsne : '>' ∉ ids := by
    intro hmem
    have := hid '>' hmem
    rw [isIdChar_gt] at this
    exact Bool.noConfusion this
  rcases hcase with htok | ⟨ds, hdne, hds, htok⟩
  · refine ⟨'<' :: '@' :: ids, by simp [htok], ?_⟩
    intro hmem
    simp only [List.mem_cons] at hmem
    rcases hmem with h1 | h1 | hmem
    · exact absurd h1 (by decide)
    · exact absurd h1 (by decide)
    · exact hidsne hmem
  · refine ⟨'<' :: '@' :: (ids ++ '|' :: ds), by simp [htok], ?_⟩
    intro hmem
    simp only [List.mem_cons, List.mem_append] at hmem
    rcases hmem with h1 | h1 | (hmem | h1 | hmem)
    · exact absurd h1 (by decide)
    · exact absurd h1 (by decide)
    · exact hidsne hmem
    · exact absurd h1 (by decide)
    · exact hds '>' hmem rfl

theorem matchMentionAt_ne_nil {s tok : Str} (h : matchMentionAt s = some tok) :
    tok ≠ [] :=
  WFTok_ne_nil (matchMentionAt_eq_some h).1

theorem scanMentionsFuel_congr : ∀ (n m : Nat) (s : Str) (i : Nat),
    s.length ≤ n → s.length ≤ m → scanMentionsFuel n s i = scanMentionsFuel m s i := by
  intro n
  induction n with
  | zero =>
    intro m s i hn _
    have hs : s = [] := List.length_eq_zero.mp (Nat.le_zero.mp hn)
    subst hs
    cases m <;> rfl
  | succ n ih =>
    intro m s i hn hm
    cases s with
    | nil => cases m <;> rfl
    | cons c rest =>
      cases m with
      | zero => exact absurd hm (by simp)
      | succ m =>
        rw [scanMentionsFuel, scanMentionsFuel]
        rcases hmatch : matchMentionAt (c :: rest) with _ | tok
        · exact ih m rest (i + 1) (Nat.le_of_succ_le_succ hn) (Nat.le_of_succ_le_succ hm)
        · have htoklen : 1 ≤ tok.length :=
            List.length_pos.mpr (matchMentionAt_ne_nil hmatch)
          have hlen : ((c :: rest).drop tok.length).length ≤ n := by
            rw [List.length_drop]
            simp only [List.length_cons] at hn ⊢
            omega
          have hlen2 : ((c :: rest).drop tok.length).length ≤ m := by
            rw [List.length_drop]
            simp only [List.length_cons] at hm ⊢
            omega
          exact congrArg (fun l => (tok, i) :: l) (ih m _ (i + tok.length) hlen hlen2)

theorem scanMentions_nil (i : Nat) : scanMentions [] i = [] := rfl

theorem scanMentions_cons (c : Char) (rest : Str) (i : Nat) :
    scanMentions (c :: rest) i =
      match matchMentionAt (c :: rest) with
      | some tok => (tok, i) :: scanMentions ((c :: rest).drop tok.length) (i + tok.length)
      | none => scanMentions rest (i + 1) := by
  show scanMentionsFuel (rest.length + 1) (c :: rest) i = _
  rw [scanMentionsFuel]
  rcases hmatch : matchMentionAt (c :: rest) with _ | tok
  · rfl
  · have htoklen : 1 ≤ tok.length :=
      List.length_pos.mpr (matchMentionAt_ne_nil hmatch)
    have hlen : ((c :: rest).drop tok.length).length ≤ rest.length := by
      rw [List.length_drop]
      simp only [List.length_cons]
      omega
    exact congrArg (fun l => (tok, i) :: l)
      (scanMentionsFuel_congr rest.length ((c :: rest).drop tok.length).length _
        (i + tok.length) hlen le_rfl)

theorem scanMentions_mem_aux : ∀ (n : Nat) (s : Str) (i : Nat) (tk : Str) (p : Nat),
    s.length ≤ n → (tk, p) ∈ scanMentions s i →
    ∃ d, p = i + d ∧ matchMentionAt (s.drop d) = some tk := by
  intro n
  induction n with
  | zero =>
    intro s i tk p hn hmem
    have hs : s = [] := List.length_eq_zero.mp (Nat.le_zero.mp hn)
    subst hs
    exact absurd hmem (by simp [scanMentions_nil])
  | succ n ih =>
    intro s i tk p hn hmem
    cases s with
    | nil => exact absurd hmem (by simp [scanMentions_nil])
    | cons c rest =>
      rcases hmatch : matchMentionAt (c :: rest) with _ | tok
      · have hcons : scanMentions (c :: rest) i = scanMentions rest (i + 1) := by
          rw [scanMentions_cons, hmatch]
        rw [hcons] at hmem
        obtain ⟨d, hp, hm⟩ := ih rest (i + 1) tk p (Nat.le_of_succ_le_succ hn) hmem
        refine ⟨d + 1, by omega, ?_⟩
        rwa [List.drop_succ_cons]
      · have hcons : scanMentions (c :: rest) i =
            (tok, i) :: scanMentions ((c :: rest).drop tok.length) (i + tok.length) := by
          rw [scanMentions_cons, hmatch]
        rw [hcons] at hmem
        rcases List.mem_cons.mp hmem with heq | hmem
        · obtain ⟨htk, hp⟩ := Prod.mk.injEq .. ▸ heq
          refine ⟨0, by omega, ?_⟩
          rw [List.drop_zero, hmatch, htk]
        · have htoklen : 1 ≤ tok.length :=
            List.length_pos.mpr (matchMentionAt_ne_nil hmatch)
          have hlen : ((c :: rest).drop tok.length).length ≤ n := by
            rw [List.length_drop]
            simp only [List.length_cons] at hn ⊢
            omega
          obtain ⟨d, hp, hm⟩ := ih _ (i + tok.length) tk p hlen hmem
          refine ⟨tok.length + d, by omega, ?_⟩
          rwa [List.drop_drop] at hm

theorem scanMentions_mem {s : Str} {i : Nat} {tk : Str} {p : Nat}
    (hmem : (tk, p) ∈ scanMentions s i) :
    ∃ d, p = i + d ∧ matchMentionAt (s.drop d) = some tk :=
  scanMentions_mem_aux s.length s i tk p le_rfl hmem

theorem scanMentions_mem_le {s : Str} {i : Nat} {e : Str × Nat}
    (hmem : e ∈ scanMentions s i) : i ≤ e.2 := by
  obtain ⟨d, hp, _⟩ := @scanMentions_mem s i e.1 e.2 (by simpa using hmem)
  omega

theorem scanMentions_pairwise_aux : ∀ (n : Nat) (s : Str) (i : Nat), s.length ≤ n →
    List.Pairwise (fun a b : Str × Nat => a.2 + a.1.length ≤ b.2) (scanMentions s i) := by
  intro n
  induction n with
  | zero =>
    intro s i hn
    have hs : s = [] := List.length_eq_zero.mp (Nat.le_zero.mp hn)
    subst hs
    simp [scanMentions_nil]
  | succ n ih =>
    intro s i hn
    cases s with
    | nil => simp [scanMentions_nil]
    | cons c rest =>
      rcases hmatch : matchMentionAt (c :: rest) with _ | tok
      · have hcons : scanMentions (c :: rest) i = scanMentions rest (i + 1) := by
          rw [scanMentions_cons, hmatch]
        rw [hcons]
        exact ih rest (i + 1) (Nat.le_of_succ_le_succ hn)
      · have hcons : scanMentions (c :: rest) i =
            (tok, i) :: scanMentions ((c :: rest).drop tok.length) (i + tok.length) := by
          rw [scanMentions_cons, hmatch]
        rw [hcons]
        have htoklen : 1 ≤ tok.length :=
          List.length_pos.mpr (matchMentionAt_ne_nil hmatch)
        have hlen : ((c :: rest).drop tok.length).length ≤ n := by
          rw [List.length_drop]
          simp only [List.length_cons] at hn ⊢
          omega
        refine List.Pairwise.cons ?_ (ih _ (i + tok.length) hlen)
        intro b hb
        have hble := scanMentions_mem_le hb
        show i + tok.length ≤ b.2
        omega

theorem scanMentions_pairwise (s : Str) (i : Nat) :
    List.Pairwise (fun a b : Str × Nat => a.2 + a.1.length ≤ b.2) (scanMentions s i) :=
  scanMentions_pairwise_aux s.length s i le_rfl

theorem scanMentions_coverage_aux : ∀ (n : Nat) (s : Str), s.length ≤ n →
    ∀ (i q : Nat) (t : Str), matchMentionAt (s.drop q) = some t →
    ∃ tk p, (tk, p) ∈ scanMentions s i ∧ p ≤ i + q ∧ i + q < p + tk.length := by
  intro n
  induction n with
  | zero =>
    intro s hn i q t hm
    have hs : s = [] := List.length_eq_zero.mp (Nat.le_zero.mp hn)
    subst hs
    rw [List.drop_nil] at hm
    exact absurd hm (by simp [matchMentionAt])
  | succ n ih =>
    intro s hn i q t hm
    cases s with
    | nil =>
      rw [List.drop_nil] at hm
      exact absurd hm (by simp [matchMentionAt])
    | cons c rest =>
      rcases hmatch : matchMentionAt (c :: rest) with _ | tok
      · have hcons : scanMentions (c :: rest) i = scanMentions rest (i + 1) := by
          rw [scanMentions_cons, hmatch]
        cases q with
        | zero =>
          rw [List.drop_zero] at hm
          rw [hmatch] at hm
          exact absurd hm (by simp)
        | succ q =>
          rw [List.drop_succ_cons] at hm
          obtain ⟨tk, p, hmem, h1, h2⟩ := ih rest (Nat.le_of_succ_le_succ hn) (i + 1) q t hm
          refine ⟨tk, p, by rwa [hcons], by omega, by omega⟩
      · have hcons : scanMentions (c :: rest) i =
            (tok, i) :: scanMentions ((c :: rest).drop tok.length) (i + tok.length) := by
          rw [scanMentions_cons, hmatch]
        have htoklen : 1 ≤ tok.length :=
          List.length_pos.mpr (matchMentionAt_ne_nil hmatch)
        by_cases hq : q < tok.length
        · exact ⟨tok, i, by rw [hcons]; simp, by omega, by omega⟩
        · have hlen : ((c :: rest).drop tok.length).length ≤ n := by
            rw [List.length_drop]
            simp only [List.length_cons] at hn ⊢
            omega
          have hdrop : ((c :: rest).drop tok.length).drop (q - tok.length) = (c :: rest).drop q := by
            rw [List.drop_drop]
            congr 1
            omega
          obtain ⟨tk, p, hmem, h1, h2⟩ :=
            ih _ hlen (i + tok.length) (q - tok.length) t (by rwa [hdrop])
          refine ⟨tk, p, by rw [hcons]; exact List.mem_cons_of_mem _ hmem, by omega, by omega⟩

theorem scanMentions_coverage {s : Str} {i q : Nat} {t : Str}
    (hm : matchMentionAt (s.drop q) = some t) :
    ∃ tk p, (tk, p) ∈ scanMentions s i ∧ p ≤ i + q ∧ i + q < p + tk.length :=
  scanMentions_coverage_aux s.length s le_rfl i q t hm

theorem occursAtB_iff {pat s : Str} {q : Nat} :
    occursAtB pat s q = true ↔ ∃ r, s.drop q = pat ++ r := by
  unfold occursAtB
  rw [decide_eq_true_iff]
  constructor
  · intro h
    refine ⟨(s.drop q).drop pat.length, ?_⟩
    conv_lhs => rw [← List.take_append_drop pat.length (s.drop q)]
    rw [h]
  · rintro ⟨r, hr⟩
    rw [hr]
    exact List.take_left pat r

theorem lastIndexOfAux_eq_some {s pat : Str} {m : Nat} : ∀ (n : Nat), m ≤ n →
    occursAtB pat s m = true → (∀ j, m < j → j ≤ n → occursAtB pat s j = false) →
    lastIndexOfAux s pat n = some m := by
  intro n
  induction n with
  | zero =>
    intro hm hocc _
    have hm0 : m = 0 := Nat.le_zero.mp hm
    subst hm0
    simp [lastIndexOfAux, hocc]
  | succ n ih =>
    intro hm hocc hnone
    rw [lastIndexOfAux]
    by_cases h : occursAtB pat s (n + 1) = true
    · rw [if_pos h]
      have hmeq : m = n + 1 := by
        by_contra hne
        have hlt : m < n + 1 := by omega
        rw [hnone (n + 1) hlt le_rfl] at h
        exact Bool.noConfusion h
      rw [hmeq]
    · rw [if_neg h]
      have hm' : m ≤ n := by
        rcases Nat.lt_or_ge m (n + 1) with h1 | h1
        · omega
        · exfalso
          have hmeq : m = n + 1 := by omega
          rw [hmeq] at hocc
          exact h hocc
      exact ih hm' hocc (fun j hj1 hj2 => hnone j hj1 (by omega))

theorem jsLastIndexOf_getLast {s : Str} {ms : List (Str × Nat)}
    (hms : scanMentions s 0 = ms) (hne : ms ≠ []) :
    jsLastIndexOf s (ms.getLast hne).1 = ((ms.getLast hne).2 : Int) := by
  have hmem0 : ms.getLast hne ∈ scanMentions s 0 := by
    rw [hms]; exact List.getLast_mem hne
  obtain ⟨d, hp, hmatch⟩ :=
    @scanMentions_mem s 0 (ms.getLast hne).1 (ms.getLast hne).2 (by simpa using hmem0)
  have hd : d = (ms.getLast hne).2 := by omega
  rw [hd] at hmatch
  obtain ⟨hwf, r0, hdrop⟩ := matchMentionAt_eq_some hmatch
  have htokne : (ms.getLast hne).1 ≠ [] := WFTok_ne_nil hwf
  have hlt : (ms.getLast hne).2 < s.length := by
    by_contra hge
    have hnil : s.drop (ms.getLast hne).2 = [] := List.drop_eq_nil_of_le (by omega)
    rw [hnil] at hdrop
    exact htokne (List.append_eq_nil.mp hdrop.symm).1
  have hocc : occursAtB (ms.getLast hne).1 s (ms.getLast hne).2 = true :=
    occursAtB_iff.mpr ⟨r0, hdrop⟩
  have hnone : ∀ j, (ms.getLast hne).2 < j → j ≤ s.length →
      occursAtB (ms.getLast hne).1 s j = false := by
    intro j hj1 hj2
    by_contra hfalse
    have hj : occursAtB (ms.getLast hne).1 s j = true := Bool.ne_false_iff.mp hfalse
    obtain ⟨r, hr⟩ := occursAtB_iff.mp hj
    have hmatch2 : matchMentionAt (s.drop j) = some (ms.getLast hne).1 := by
      rw [hr]; exact matchMentionAt_of_WFTok hwf r
    obtain ⟨tk, p, hmemtk, h1, h2⟩ := scanMentions_coverage (i := 0) hmatch2
    rw [hms] at hmemtk
    have hsplitms : ms.dropLast ++ [ms.getLast hne] = ms := List.dropLast_append_getLast hne
    have hpw : List.Pairwise (fun a b : Str × Nat => a.2 + a.1.length ≤ b.2)
        (ms.dropLast ++ [ms.getLast hne]) := by
      rw [hsplitms, ← hms]; exact scanMentions_pairwise s 0
    rw [← hsplitms] at hmemtk
    rcases List.mem_append.mp hmemtk with hmemd | hmeml
    · have hrel := ((List.pairwise_append.mp hpw).2.2) (tk, p) hmemd (ms.getLast hne) (by simp)
      simp only at hrel
      omega
    · have heq : (tk, p) = ms.getLast hne := by simpa using hmeml
      have htk : tk = (ms.getLast hne).1 := by rw [← heq]
      have hpe : p = (ms.getLast hne).2 := by rw [← heq]
      subst htk
      subst hpe
      -- the occurrence starts strictly inside the final match and would put
      -- a `>` before the token's final position
      obtain ⟨body, hbody, hnb⟩ := WFTok_split hwf
      have hlen1 : (ms.getLast hne).1.length = body.length + 1 := by
        rw [hbody]; simp
      have hd1 : 0 < j - (ms.getLast hne).2 := by omega
      have hd2 : j - (ms.getLast hne).2 ≤ body.length := by omega
      have hdj : s.drop j = (ms.getLast hne).1.drop (j - (ms.getLast hne).2) ++ r0 := by
        have hjd : s.drop j = (s.drop (ms.getLast hne).2).drop (j - (ms.getLast hne).2) := by
          rw [List.drop_drop]
          congr 1
          omega
        rw [hjd, hdrop, List.drop_append_of_le_length (by omega)]
      have hE : (ms.getLast hne).1 ++ r = body.drop (j - (ms.getLast hne).2) ++ '>' :: r0 := by
        rw [← hr, hdj, hbody, List.drop_append_of_le_length hd2]
        simp
      have hE2 : (body ++ ['>']) ++ r = body.drop (j - (ms.getLast hne).2) ++ '>' :: r0 := by
        rw [← hbody]; exact hE
      have hj0 : body.length - (j - (ms.getLast hne).2) < body.length := by omega
      have hgetL : ((body ++ ['>']) ++ r)[body.length - (j - (ms.getLast hne).2)]? =
          body[body.length - (j - (ms.getLast hne).2)]? := by
        rw [List.getElem?_append, if_pos (by simp; omega), List.getElem?_append,
          if_pos (by omega)]
      have hgetR : (body.drop (j - (ms.getLast hne).2) ++ '>' :: r0)[body.length -
          (j - (ms.getLast hne).2)]? = some '>' := by
        rw [List.getElem?_append_right (by rw [List.length_drop])]
        rw [List.length_drop]
        simp
      have hbodyget : body[body.length - (j - (ms.getLast hne).2)]? = some '>' := by
        rw [← hgetL, hE2, hgetR]
      obtain ⟨hb1, hb2⟩ := List.getElem?_eq_some.mp hbodyget
      exact hnb (hb2 ▸ List.getElem_mem hb1)
  have haux : lastIndexOfAux s (ms.getLast hne).1 s.length =
      some (ms.getLast hne).2 :=
    lastIndexOfAux_eq_some s.length (Nat.le_of_lt hlt) hocc hnone
  rw [jsLastIndexOf, haux]

theorem scanMentions_shift_aux : ∀ (n : Nat) (s : Str), s.length ≤ n → ∀ (i : Nat),
    scanMentions s i = (scanMentions s 0).map (fun a => (a.1, a.2 + i)) := by
  intro n
  induction n with
  | zero =>
    intro s hn i
    have hs : s = [] := List.length_eq_zero.mp (Nat.le_zero.mp hn)
    subst hs
    simp [scanMentions_nil]
  | succ n ih =>
    intro s hn i
    cases s with
    | nil => simp [scanMentions_nil]
    | cons c rest =>
      rcases hmatch : matchMentionAt (c :: rest) with _ | tok
      · have hc1 : scanMentions (c :: rest) i = scanMentions rest (i + 1) := by
          rw [scanMentions_cons, hmatch]
        have hc0 : scanMentions (c :: rest) 0 = scanMentions rest 1 := by
          rw [scanMentions_cons, hmatch]
        rw [hc1, hc0, ih rest (Nat.le_of_succ_le_succ hn) (i + 1),
          ih rest (Nat.le_of_succ_le_succ hn) 1, List.map_map]
        congr 1
        funext a
        simp only [Function.comp]
        congr 1
        omega
      · have htoklen : 1 ≤ tok.length :=
          List.length_pos.mpr (matchMentionAt_ne_nil hmatch)
        have hlen : ((c :: rest).drop tok.length).length ≤ n := by
          rw [List.length_drop]
          simp only [List.length_cons] at hn ⊢
          omega
        have hc1 : scanMentions (c :: rest) i =
            (tok, i) :: scanMentions ((c :: rest).drop tok.length) (i + tok.length) := by
          rw [scanMentions_cons, hmatch]
        have hc0 : scanMentions (c :: rest) 0 =
            (tok, 0) :: scanMentions ((c :: rest).drop tok.length) (0 + tok.length) := by
          rw [scanMentions_cons, hmatch]
        rw [hc1, hc0, ih _ hlen (i + tok.length), ih _ hlen (0 + tok.length), List.map_cons,
          List.map_map]
        congr 1
        · simp
        · congr 1
          funext a
          simp only [Function.comp]
          congr 1
          omega

theorem scanMentions_shift (s : Str) (i : Nat) :
    scanMentions s i = (scanMentions s 0).map (fun a => (a.1, a.2 + i)) :=
  scanMentions_shift_aux s.length s le_rfl i

/-- C1: for every raw command text in which the mention regex finds `k ≥ 1`
platform-formatted mention tokens (pattern `<@ID>` or `<@ID|display>`), the
mention parser returns exactly `k` recipients — the matched tokens in order
of first appearance — and a message equal to the suffix of the text after
the end of the last matched token, trimmed of whitespace (non-empty by the
trailing-text hypothesis). -/
theorem mention_parser_proper_spec (text : Str) (members : List Member) (lookupOk : Bool)
    (ms : List (Str × Nat)) (k : Nat)
    (hms : scanMentions text 0 = ms) (hne : ms ≠ []) (hk : ms.length = k)
    (_hmsg : jsTrim (text.drop ((ms.getLast hne).2 + (ms.getLast hne).1.length)) ≠ []) :
    parseRecipients text members lookupOk =
      ParseOutcome.ok (ms.map Prod.fst)
        (jsTrim (text.drop ((ms.getLast hne).2 + (ms.getLast hne).1.length))) ∧
    (ms.map Prod.fst).length = k ∧ 1 ≤ k := by
  refine ⟨?_, by simpa using hk, by have := List.length_pos.mpr hne; omega⟩
  have hlen : 0 < (scanMentions text 0).length := by
    rw [hms]; exact List.length_pos.mpr hne
  simp only [parseRecipients, if_pos hlen]
  have hgld : (scanMentions text 0).getLastD ([], 0) = ms.getLast hne := by
    rw [hms, List.getLastD_eq_getLast?, List.getLast?_eq_getLast ms hne]
    rfl
  rw [hgld, hms, jsLastIndexOf_getLast hms hne]
  exact rfl

/-- Witness for C1 at the concrete command text `"<@U1> hi"`. -/
theorem mention_parser_proper_spec_witness :
    parseRecipients (("<@U1> hi").data) [] true =
      ParseOutcome.ok [("<@U1>").data] (("hi").data) ∧
    ([(("<@U1>").data, 0)].map Prod.fst).length = 1 := by
  have h := mention_parser_proper_spec (("<@U1> hi").data) [] true
    [(("<@U1>").data, 0)] 1 (by decide) (by decide) (by decide) (by decide)
  exact ⟨h.1.trans (by decide), h.2.1⟩

/-! ## Formatter, rate limiter and store theorems -/

/-- C9: the recipient-list formatter yields the entry as-is for one
recipient, "X and Y" for two, and for three or more all but the last joined
by ", " with ", and " before the final item only (Oxford comma); duplicates
in the list are kept as separate entries, which the universally quantified
entries cover. -/
theorem formatter_cases :
    (∀ x : Str, formatRecipients [x] = x) ∧
    (∀ x y : Str, formatRecipients [x, y] = x ++ (" and ").data ++ y) ∧
    (∀ l : List Str, 3 ≤ l.length →
      formatRecipients l =
        List.intercalate ((", ").data) l.dropLast ++ ((", and ").data) ++ l.getLastD []) := by
  refine ⟨fun x => rfl, fun x y => rfl, fun l hl => ?_⟩
  unfold formatRecipients
  rw [if_neg (by omega), if_neg (by omega)]

/-- Witness for C9 at a three-element list with a repeated entry. -/
theorem formatter_cases_witness :
    formatRecipients [("a").data, ("b").data, ("a").data] =
      List.intercalate ((", ").data) [("a").data, ("b").data] ++ ((", and ").data) ++
        ("a").data := by
  have h := formatter_cases.2.2 [("a").data, ("b").data, ("a").data] (by decide)
  exact h.trans (by decide)


theorem lookupCooldown_setCooldown_self (m : List (Str × Nat)) (k : Str) (v : Nat) :
    lookupCooldown (setCooldown m k v) k = some v := by
  induction m with
  | nil => simp [setCooldown, lookupCooldown]
  | cons e rest ih =>
    by_cases he : e.1 = k
    · simp [setCooldown, he, lookupCooldown]
    · simp only [setCooldown, if_neg he]
      unfold lookupCooldown
      rw [List.find?_cons_of_neg _ (by simpa using he)]
      exact ih

theorem tryAcquire_allowed_state {st : LimiterState} {u : Str} {now : Nat} {st1 : LimiterState}
    (h : tryAcquire st u now = .allowed st1) :
    u ∉ st.usersProcessing ∧
    st1 = ⟨setCooldown st.userCooldowns u now, u :: st.usersProcessing⟩ := by
  unfold tryAcquire at h
  by_cases hmem : u ∈ st.usersProcessing
  · rw [if_pos hmem] at h
    exact absurd h (by simp)
  · rw [if_neg hmem] at h
    refine ⟨hmem, ?_⟩
    simp only at h
    by_cases hc : 0 < (lookupCooldown st.userCooldowns u).getD 0 ∧
        now - (lookupCooldown st.userCooldowns u).getD 0 < COOLDOWN_MS
    · rw [if_pos hc] at h
      exact absurd h (by simp)
    · rw [if_neg hc] at h
      exact (AcquireResult.allowed.inj h).symm

/-- C4: a first `tryAcquire` by a user who is not in flight and not cooling
down returns `Allowed` and records the (nonzero) call instant as their last
submission; a second call `d < 3000` ms later (after the first handler
invocation released the in-flight lock) returns `CoolingDown`, the remaining
wait `3000 - d` ms is positive and at most 3000, and the displayed wait is
that value rounded up to whole seconds, hence 1, 2, or 3.  (`0 < t0` is
required because the source guards the cooldown check with JavaScript
truthiness of the stored instant, so a stored instant of exactly 0 — the
1970 epoch — would be skipped.) -/
theorem tryAcquire_cooldown_sequence (st : LimiterState) (u : Str) (t0 d : Nat)
    (hproc : u ∉ st.usersProcessing)
    (hcool : ¬(0 < (lookupCooldown st.userCooldowns u).getD 0 ∧
      t0 - (lookupCooldown st.userCooldowns u).getD 0 < COOLDOWN_MS))
    (ht0 : 0 < t0) (hd : d < COOLDOWN_MS) :
    ∃ st1, tryAcquire st u t0 = .allowed st1 ∧
      lookupCooldown st1.userCooldowns u = some t0 ∧
      tryAcquire (release st1 u) u (t0 + d) =
        .coolingDown ((COOLDOWN_MS - d + 999) / 1000) ∧
      0 < COOLDOWN_MS - d ∧ COOLDOWN_MS - d ≤ COOLDOWN_MS ∧
      1 ≤ (COOLDOWN_MS - d + 999) / 1000 ∧ (COOLDOWN_MS - d + 999) / 1000 ≤ 3 := by
  refine ⟨⟨setCooldown st.userCooldowns u t0, u :: st.usersProcessing⟩, ?_, ?_, ?_, ?_, ?_, ?_, ?_⟩
  · unfold tryAcquire
    rw [if_neg hproc]
    simp only
    rw [if_neg hcool]
  · exact lookupCooldown_setCooldown_self st.userCooldowns u t0
  · have hrel : release ⟨setCooldown st.userCooldowns u t0, u :: st.usersProcessing⟩ u =
        ⟨setCooldown st.userCooldowns u t0,
          (u :: st.usersProcessing).filter (fun x => decide (¬(x = u)))⟩ := rfl
    rw [hrel]
    unfold tryAcquire
    have hnotmem : u ∉ (u :: st.usersProcessing).filter (fun x => decide (¬(x = u))) := by
      intro hmem
      have hcontra := (List.mem_filter.mp hmem).2
      simp at hcontra
    rw [if_neg hnotmem]
    simp only
    rw [lookupCooldown_setCooldown_self st.userCooldowns u t0]
    simp only [Option.getD_some]
    rw [if_pos ⟨ht0, by omega⟩]
    have harg : t0 + d - t0 = d := by omega
    rw [harg]
  · unfold COOLDOWN_MS at hd ⊢; omega
  · omega
  · have h1000 : 1000 ≤ COOLDOWN_MS - d + 999 := by unfold COOLDOWN_MS at hd ⊢; omega
    omega
  · have h4000 : COOLDOWN_MS - d + 999 < 4000 := by unfold COOLDOWN_MS at hd ⊢; omega
    omega

/-- Witness for C4 at `t0 = 1000`, `d = 500`, fresh limiter state. -/
theorem tryAcquire_cooldown_sequence_witness :
    ∃ st1, tryAcquire ⟨[], []⟩ (("U").data) 1000 = .allowed st1 ∧
      lookupCooldown st1.userCooldowns (("U").data) = some 1000 ∧
      tryAcquire (release st1 (("U").data)) (("U").data) (1000 + 500) =
        .coolingDown ((COOLDOWN_MS - 500 + 999) / 1000) ∧
      0 < COOLDOWN_MS - 500 ∧ COOLDOWN_MS - 500 ≤ COOLDOWN_MS ∧
      1 ≤ (COOLDOWN_MS - 500 + 999) / 1000 ∧ (COOLDOWN_MS - 500 + 999) / 1000 ≤ 3 :=
  tryAcquire_cooldown_sequence ⟨[], []⟩ (("U").data) 1000 500 (by decide)
    (by decide) (by decide) (by decide)

theorem release_cons_self {cool : List (Str × Nat)} {l : List Str} {u : Str}
    (hmem : u ∉ l) :
    (release ⟨cool, u :: l⟩ u).usersProcessing = l := by
  show (u :: l).filter (fun x => decide (¬(x = u))) = l
  rw [List.filter_cons_of_neg (by simp)]
  rw [List.filter_eq_self.mpr]
  intro x hx
  simp only [decide_eq_true_eq]
  exact fun he => hmem (he ▸ hx)

theorem handleText_processing (st : LimiterState) (history : List KudosEvent)
    (userId cmdText channelId : Str) (members : List Member)
    (now : Nat) (lookupOk sayOk : Bool) :
    (handleTextKudosCommand st history userId cmdText channelId members
      now lookupOk sayOk).state.usersProcessing = st.usersProcessing := by
  unfold handleTextKudosCommand
  rcases ht : tryAcquire st userId now with _ | s | st1
  · rfl
  · rfl
  · obtain ⟨hmem, hst1⟩ := tryAcquire_allowed_state ht
    have hrelease : (release st1 userId).usersProcessing = st.usersProcessing := by
      rw [hst1]
      exact release_cons_self hmem
    cases hp : parseRecipients (jsTrim cmdText) members lookupOk with
    | userNotFound u => exact hrelease
    | lookupError => exact hrelease
    | ok recips msg =>
      by_cases h1 : recips.length = 0
      · simp only [if_pos h1]
        exact hrelease
      · simp only [if_neg h1]
        by_cases h2 : msg = []
        · simp only [if_pos h2]
          exact hrelease
        · simp only [if_neg h2]
          by_cases h3 : sayOk = true
          · simp only [if_pos h3]
            exact hrelease
          · simp only [if_neg h3]
            exact hrelease

theorem handleModal_processing (st : LimiterState) (history : List KudosEvent)
    (userId channelId : Str) (recipients : List Str) (message : Str)
    (now : Nat) (postOk : Bool) :
    (handleModalSubmission st history userId channelId recipients message
      now postOk).state.usersProcessing = st.usersProcessing := by
  unfold handleModalSubmission
  rcases ht : tryAcquire st userId now with _ | s | st1
  · rfl
  · rfl
  · obtain ⟨hmem, hst1⟩ := tryAcquire_allowed_state ht
    have hrelease : (release st1 userId).usersProcessing = st.usersProcessing := by
      rw [hst1]
      exact release_cons_self hmem
    unfold modalLocked
    by_cases h1 : recipients.length = 0
    · simp only [if_pos h1]
      exact hrelease
    · simp only [if_neg h1]
      by_cases h2 : jsTrim message = []
      · simp only [if_pos h2]
        exact hrelease
      · simp only [if_neg h2]
        by_cases h3 : postOk = true
        · simp only [if_pos h3]
          exact hrelease
        · simp only [if_neg h3]
          exact hrelease

/-- C5: `tryAcquire` returns `Busy` for a user already in the in-flight set,
regardless of the current instant (hence of the time since their last
submission); and both handlers restore the in-flight set on every exit path
(success, every validation failure, and the modelled thrown-error paths), so
an inserted user id is removed again within the same invocation. -/
theorem inflight_busy_and_released (st : LimiterState) (history : List KudosEvent)
    (userId cmdText channelId : Str) (members : List Member)
    (recipients : List Str) (message : Str)
    (now : Nat) (lookupOk sayOk postOk : Bool) :
    (userId ∈ st.usersProcessing → tryAcquire st userId now = .busy) ∧
    (handleTextKudosCommand st history userId cmdText channelId members
      now lookupOk sayOk).state.usersProcessing = st.usersProcessing ∧
    (handleModalSubmission st history userId channelId recipients message
      now postOk).state.usersProcessing = st.usersProcessing := by
  refine ⟨fun hmem => ?_, ?_, ?_⟩
  · unfold tryAcquire
    rw [if_pos hmem]
  · exact handleText_processing st history userId cmdText channelId members now lookupOk sayOk
  · exact handleModal_processing st history userId channelId recipients message now postOk

/-- Witness for C5: a user already in flight is rejected as busy even hours
later, and a full successful invocation leaves the in-flight set unchanged. -/
theorem inflight_busy_and_released_witness :
    tryAcquire ⟨[(("U").data, 1)], [("U").data]⟩ (("U").data) 99999999 = .busy ∧
    (handleTextKudosCommand ⟨[], []⟩ [] (("U").data) (("<@U1> hi").data) (("C").data) []
      5 true true).state.usersProcessing = ([] : List Str) := by
  constructor
  · exact (inflight_busy_and_released ⟨[(("U").data, 1)], [("U").data]⟩ [] (("U").data)
      ([]) ([]) [] [] ([]) 99999999 true true true).1 (by decide)
  · exact (inflight_busy_and_released ⟨[], []⟩ [] (("U").data) (("<@U1> hi").data)
      (("C").data) [] [] ([]) 5 true true true).2.1

/-! ## Store and stats theorems -/

theorem appendEvents_eq (history evs : List KudosEvent) :
    appendEvents history evs = history ++ evs := by
  induction evs generalizing history with
  | nil => simp [appendEvents]
  | cons e rest ih =>
    show appendEvents (recordKudosEntry history e) rest = history ++ e :: rest
    rw [ih (recordKudosEntry history e)]
    simp [recordKudosEntry]

/-- C8 counterexample: starting from a stored history that already contains
an event inside the window, appending one event and querying with a cutoff
earlier than the new event's timestamp returns the old event as well, so the
result is not set-equal to the appended events. -/
theorem kudos_roundtrip_counterexample :
    queryRecentSince
        (appendEvents [⟨10, ("A").data, [("B").data], ("m").data, ("c").data⟩]
          [⟨20, ("D").data, [("E").data], ("n").data, ("c").data⟩]) 5 ≠
      [⟨20, ("D").data, [("E").data], ("n").data, ("c").data⟩] ∧
    (⟨10, ("A").data, [("B").data], ("m").data, ("c").data⟩ : KudosEvent) ∈
      queryRecentSince
        (appendEvents [⟨10, ("A").data, [("B").data], ("m").data, ("c").data⟩]
          [⟨20, ("D").data, [("E").data], ("n").data, ("c").data⟩]) 5 ∧
    (⟨10, ("A").data, [("B").data], ("m").data, ("c").data⟩ : KudosEvent) ∉
      [(⟨20, ("D").data, [("E").data], ("n").data, ("c").data⟩ : KudosEvent)] := by
  refine ⟨by decide, by decide, by decide⟩

/-- C8 (amended): starting from a stored history all of whose events are
strictly older than the cutoff, appending N events whose timestamps are all
later than the cutoff and querying with that cutoff returns exactly those N
events — as a list, hence also as a set and with the right count. -/
theorem kudos_roundtrip_amended (old new : List KudosEvent) (cutoff : Nat)
    (hold : ∀ e ∈ old, e.timestamp < cutoff)
    (hnew : ∀ e ∈ new, cutoff < e.timestamp) :
    queryRecentSince (appendEvents old new) cutoff = new ∧
    (∀ e, e ∈ queryRecentSince (appendEvents old new) cutoff ↔ e ∈ new) ∧
    (queryRecentSince (appendEvents old new) cutoff).length = new.length := by
  have hmain : queryRecentSince (appendEvents old new) cutoff = new := by
    rw [appendEvents_eq]
    unfold queryRecentSince
    rw [List.filter_append]
    have h1 : old.filter (fun e => decide (cutoff ≤ e.timestamp)) = [] := by
      rw [List.filter_eq_nil_iff]
      intro e he
      have := hold e he
      simp only [decide_eq_true_eq]
      omega
    have h2 : new.filter (fun e => decide (cutoff ≤ e.timestamp)) = new := by
      rw [List.filter_eq_self]
      intro e he
      have := hnew e he
      simp only [decide_eq_true_eq]
      omega
    rw [h1, h2, List.nil_append]
  exact ⟨hmain, fun e => by rw [hmain], by rw [hmain]⟩

/-- Witness for the amended C8 with a one-event prior history and two new
events. -/
theorem kudos_roundtrip_amended_witness :
    queryRecentSince
        (appendEvents [⟨1, ("A").data, [("B").data], ("m").data, ("c").data⟩]
          [⟨10, ("D").data, [("E").data], ("n").data, ("c").data⟩,
           ⟨11, ("F").data, [("G").data], ("o").data, ("c").data⟩]) 5 =
      [⟨10, ("D").data, [("E").data], ("n").data, ("c").data⟩,
       ⟨11, ("F").data, [("G").data], ("o").data, ("c").data⟩] :=
  (kudos_roundtrip_amended [⟨1, ("A").data, [("B").data], ("m").data, ("c").data⟩]
    [⟨10, ("D").data, [("E").data], ("n").data, ("c").data⟩,
     ⟨11, ("F").data, [("G").data], ("o").data, ("c").data⟩] 5
    (by decide) (by decide)).1

/-- C10: when no stored event lies in the trailing window (the cutoff is the
3-month-ago instant computed by the host date library), an authorized
`/stats` request takes the distinct empty-state branch — the fixed
`emptyStateMessage` response — and, being a total function, never throws. -/
theorem stats_empty_state (authorizedUsers : List Str) (userId : Str)
    (history : List KudosEvent) (cutoff : Nat)
    (hauth : authorizedUsers = [] ∨ userId ∈ authorizedUsers)
    (hempty : queryRecentSince history cutoff = []) :
    statsCommand authorizedUsers userId history cutoff = .emptyState := by
  unfold statsCommand
  rw [if_neg ?hdeny]
  case hdeny =>
    rcases hauth with h | h
    · simp [h]
    · intro hc
      exact hc.2 h
  simp only [hempty]
  rfl

/-- Witness for C10: empty history, unrestricted stats access. -/
theorem stats_empty_state_witness :
    statsCommand [] (("U").data) [] 0 = .emptyState :=
  stats_empty_state [] (("U").data) [] 0 (Or.inl rfl) (by decide)

/-! ## Directory cache theorems -/

/-- C7: a `getUserList` call finding a cached list younger than 5 minutes
returns it without fetching and leaves the cache unchanged; whenever no
fetch is performed the served list is the cached one and its age is below
the window (no stale list is ever served); and in the two-then-expired call
scenario starting from an empty cache, the first call fetches and stores
`(list, now)`, a second call within the window serves the cache with no
second fetch, and a third call at or past expiry fetches again and
overwrites the slot.  (`0 < t` mirrors the JavaScript truthiness guard on
the stored fetch instant.) -/
theorem directory_cache_spec (l f1 f2 f3 : List Member) (t t1 t2 t3 now : Nat)
    (hfresh : 0 < t ∧ now - t < CACHE_DURATION)
    (ht1 : 0 < t1) (h12 : t2 - t1 < CACHE_DURATION) (h13 : CACHE_DURATION ≤ t3 - t1) :
    getUserList ⟨some l, some t⟩ now f1 = ⟨l, ⟨some l, some t⟩, false⟩ ∧
    (∀ (st : CacheState) (n : Nat) (f : List Member),
      (getUserList st n f).fetched = false →
      ∃ cl ct, st.userListCache = some cl ∧ st.userListCacheTime = some ct ∧
        n - ct < CACHE_DURATION ∧ (getUserList st n f).result = cl ∧
        (getUserList st n f).state = st) ∧
    getUserList ⟨none, none⟩ t1 f1 = ⟨f1, ⟨some f1, some t1⟩, true⟩ ∧
    getUserList ⟨some f1, some t1⟩ t2 f2 = ⟨f1, ⟨some f1, some t1⟩, false⟩ ∧
    getUserList ⟨some f1, some t1⟩ t3 f3 = ⟨f3, ⟨some f3, some t3⟩, true⟩ := by
  refine ⟨?_, ?_, ?_, ?_, ?_⟩
  · unfold getUserList
    dsimp only
    rw [if_pos ⟨by simp, by simpa using hfresh.1, by simpa using hfresh.2⟩]
    rfl
  · intro st n f hf
    rcases st with ⟨cache, time⟩
    by_cases hc : (¬cache = none) ∧ 0 < time.getD 0 ∧ n - time.getD 0 < CACHE_DURATION
    · obtain ⟨hcache, ht0, hage⟩ := hc
      rcases cache with _ | cl
      · exact absurd rfl hcache
      · rcases time with _ | ct
        · exact absurd ht0 (by simp)
        · simp only [Option.getD_some] at ht0 hage
          refine ⟨cl, ct, rfl, rfl, hage, ?_, ?_⟩
          · unfold getUserList
            dsimp only
            rw [if_pos ⟨by simp, by simpa using ht0, by simpa using hage⟩]
            rfl
          · unfold getUserList
            dsimp only
            rw [if_pos ⟨by simp, by simpa using ht0, by simpa using hage⟩]
    · exfalso
      unfold getUserList at hf
      dsimp only at hf
      rw [if_neg hc] at hf
      exact Bool.noConfusion hf
  · unfold getUserList
    dsimp only
    rw [if_neg (by simp)]
  · unfold getUserList
    dsimp only
    rw [if_pos ⟨by simp, by simpa using ht1, by simpa using h12⟩]
    rfl
  · unfold getUserList
    dsimp only
    rw [if_neg ?hstale]
    case hstale =>
      intro hcond
      have hage := hcond.2.2
      simp only [Option.getD_some] at hage
      omega

/-- Witness for C7 with a 5-minute window: calls at 1000, 2000, and
1000 + CACHE_DURATION. -/
theorem directory_cache_spec_witness :
    getUserList ⟨some [], some 1000⟩ 2000 [] = ⟨[], ⟨some [], some 1000⟩, false⟩ ∧
    getUserList ⟨none, none⟩ 1000 [] = ⟨[], ⟨some [], some 1000⟩, true⟩ ∧
    getUserList ⟨some [], some 1000⟩ 2000 [] = ⟨[], ⟨some [], some 1000⟩, false⟩ ∧
    getUserList ⟨some [], some 1000⟩ (1000 + CACHE_DURATION) [] =
      ⟨[], ⟨some [], some (1000 + CACHE_DURATION)⟩, true⟩ := by
  have h := directory_cache_spec [] [] [] [] 1000 1000 2000 (1000 + CACHE_DURATION) 2000
    (by decide) (by decide) (by decide) (by decide)
  exact ⟨h.1, h.2.2.1, h.2.2.2.1, h.2.2.2.2⟩

/-! ## Aggregation counting lemmas -/

theorem lookupCount_bumpCount (m : List (Str × Nat)) (x k : Str) :
    lookupCount (bumpCount m x) k = lookupCount m k + (if x = k then 1 else 0) := by
  induction m with
  | nil =>
    by_cases hxk : x = k <;> simp [bumpCount, lookupCount, hxk]
  | cons e rest ih =>
    by_cases he : e.1 = x
    · simp only [bumpCount, if_pos he]
      by_cases hek : e.1 = k
      · have hxk : x = k := he.symm.trans hek
        unfold lookupCount
        rw [List.find?_cons_of_pos _ (by simpa using hek),
          List.find?_cons_of_pos _ (by simpa using hek)]
        simp [hxk]
      · have hxk : ¬x = k := fun h => hek (he.trans h)
        unfold lookupCount
        rw [List.find?_cons_of_neg _ (by simpa using hek),
          List.find?_cons_of_neg _ (by simpa using hek)]
        simp [hxk, lookupCount]
    · simp only [bumpCount, if_neg he]
      by_cases hek : e.1 = k
      · have hxk : ¬x = k := fun h => he (hek.trans h.symm)
        unfold lookupCount
        rw [List.find?_cons_of_pos _ (by simpa using hek),
          List.find?_cons_of_pos _ (by simpa using hek)]
        simp [hxk]
      · unfold lookupCount at ih ⊢
        rw [List.find?_cons_of_neg _ (by simpa using hek),
          List.find?_cons_of_neg _ (by simpa using hek)]
        exact ih

theorem lookupCount_foldl_giver (evs : List KudosEvent) :
    ∀ (m : List (Str × Nat)) (k : Str),
    lookupCount (evs.foldl (fun m e => bumpCount m e.sender_id) m) k =
      lookupCount m k + (evs.filter (fun e => decide (e.sender_id = k))).length := by
  induction evs with
  | nil => intro m k; simp
  | cons e rest ih =>
    intro m k
    show lookupCount (rest.foldl (fun m e => bumpCount m e.sender_id)
      (bumpCount m e.sender_id)) k = _
    rw [ih (bumpCount m e.sender_id) k, lookupCount_bumpCount]
    by_cases h : e.sender_id = k
    · rw [List.filter_cons_of_pos (by simpa using h)]
      simp only [List.length_cons, if_pos h]
      omega
    · rw [List.filter_cons_of_neg (by simpa using h)]
      simp only [if_neg h]
      omega

theorem lookupCount_foldl_bump (l : List Str) : ∀ (m : List (Str × Nat)) (k : Str),
    lookupCount (l.foldl bumpCount m) k = lookupCount m k + l.count k := by
  induction l with
  | nil => intro m k; simp
  | cons x rest ih =>
    intro m k
    show lookupCount (rest.foldl bumpCount (bumpCount m x)) k = _
    rw [ih (bumpCount m x) k, lookupCount_bumpCount, List.count_cons]
    by_cases h : x = k
    · simp only [if_pos h, h, beq_self_eq_true, if_true]
      omega
    · have hbeq : (x == k) = false := by simpa using h
      simp only [if_neg h, hbeq, Bool.false_eq_true, if_false]
      omega

theorem lookupCount_foldl_receiver (evs : List KudosEvent) :
    ∀ (m : List (Str × Nat)) (k : Str),
    lookupCount (evs.foldl (fun m e => e.recipient_ids.foldl bumpCount m) m) k =
      lookupCount m k + (evs.map (fun e => e.recipient_ids.count k)).sum := by
  induction evs with
  | nil => intro m k; simp
  | cons e rest ih =>
    intro m k
    show lookupCount (rest.foldl (fun m e => e.recipient_ids.foldl bumpCount m)
      (e.recipient_ids.foldl bumpCount m)) k = _
    rw [ih (e.recipient_ids.foldl bumpCount m) k, lookupCount_foldl_bump]
    simp only [List.map_cons, List.sum_cons]
    omega

theorem sortDesc_sorted (l : List (Str × Nat)) : List.Sorted countGE (sortDesc l) :=
  List.sorted_insertionSort countGE l

theorem topFive_sorted (l : List (Str × Nat)) : List.Sorted countGE (topFive l) :=
  List.Pairwise.sublist (List.take_sublist 5 (sortDesc l)) (sortDesc_sorted l)

theorem topFive_head_unique_max (l : List (Str × Nat)) (k : Str) (c : Nat)
    (hmem : (k, c) ∈ l) (huniq : ∀ p ∈ l, p ≠ (k, c) → p.2 < c) :
    (topFive l).head? = some (k, c) := by
  have hperm : (sortDesc l).Perm l := List.perm_insertionSort countGE l
  have hmem' : (k, c) ∈ sortDesc l := hperm.mem_iff.mpr hmem
  rcases hsd : sortDesc l with _ | ⟨x, t⟩
  · rw [hsd] at hmem'
    exact absurd hmem' (by simp)
  · have hsorted := sortDesc_sorted l
    rw [hsd] at hsorted hmem' hperm
    have hxmem : x ∈ l := hperm.subset (by simp)
    by_cases hx : x = (k, c)
    · subst hx
      unfold topFive
      rw [hsd]
      rfl
    · exfalso
      have hlt : x.2 < c := huniq x hxmem hx
      rcases List.mem_cons.mp hmem' with h | h
      · exact hx h.symm
      · have hge : countGE x (k, c) := (List.sorted_cons.mp hsorted).1 _ h
        unfold countGE at hge
        simp only at hge
        omega

/-- C2: for every collection of events in the window, the giver mapping
counts the events each `sender_id` sent and the receiver mapping counts the
occurrences of each identifier across all recipient lists (an event with N
recipients adds 1 to each of its N receiver counters and 1 to its giver's
counter); each leaderboard is the first five entries of the stable
descending-by-count sort of its mapping (so it is sorted descending and has
at most five entries); and whenever a mapping has a unique maximum entry,
that entry is ranked first on its own leaderboard. -/
theorem stats_aggregation_spec (evs : List KudosEvent) :
    (∀ k, lookupCount (giverCounts evs) k =
      (evs.filter (fun e => decide (e.sender_id = k))).length) ∧
    (∀ k, lookupCount (receiverCounts evs) k =
      (evs.map (fun e => e.recipient_ids.count k)).sum) ∧
    topGivers evs = (sortDesc (giverCounts evs)).take 5 ∧
    topReceivers evs = (sortDesc (receiverCounts evs)).take 5 ∧
    List.Sorted countGE (topGivers evs) ∧
    List.Sorted countGE (topReceivers evs) ∧
    (topGivers evs).length ≤ 5 ∧ (topReceivers evs).length ≤ 5 ∧
    (∀ (gk : Str) (gc : Nat), (gk, gc) ∈ giverCounts evs →
      (∀ p ∈ giverCounts evs, p ≠ (gk, gc) → p.2 < gc) →
      (topGivers evs).head? = some (gk, gc)) ∧
    (∀ (rk : Str) (rc : Nat), (rk, rc) ∈ receiverCounts evs →
      (∀ p ∈ receiverCounts evs, p ≠ (rk, rc) → p.2 < rc) →
      (topReceivers evs).head? = some (rk, rc)) := by
  refine ⟨?_, ?_, rfl, rfl, topFive_sorted _, topFive_sorted _, ?_, ?_, ?_, ?_⟩
  · intro k
    have h := lookupCount_foldl_giver evs [] k
    simpa [lookupCount] using h
  · intro k
    have h := lookupCount_foldl_receiver evs [] k
    simpa [lookupCount] using h
  · exact List.length_take_le 5 _
  · exact List.length_take_le 5 _
  · exact fun gk gc hg hgu => topFive_head_unique_max _ gk gc hg hgu
  · exact fun rk rc hr hru => topFive_head_unique_max _ rk rc hr hru

/-- Witness for C2: three events; A gives twice (unique max giver), B
receives three times (unique max receiver, once via a two-recipient event
that also counts C). -/
theorem stats_aggregation_spec_witness :
    (topGivers [⟨1, ("A").data, [("B").data, ("C").data], ("m").data, ("c").data⟩,
      ⟨2, ("A").data, [("B").data], ("m").data, ("c").data⟩,
      ⟨3, ("D").data, [("B").data], ("m").data, ("c").data⟩]).head? =
      some (("A").data, 2) ∧
    (topReceivers [⟨1, ("A").data, [("B").data, ("C").data], ("m").data, ("c").data⟩,
      ⟨2, ("A").data, [("B").data], ("m").data, ("c").data⟩,
      ⟨3, ("D").data, [("B").data], ("m").data, ("c").data⟩]).head? =
      some (("B").data, 3) := by
  have h := stats_aggregation_spec
    [⟨1, ("A").data, [("B").data, ("C").data], ("m").data, ("c").data⟩,
     ⟨2, ("A").data, [("B").data], ("m").data, ("c").data⟩,
     ⟨3, ("D").data, [("B").data], ("m").data, ("c").data⟩]
  exact ⟨h.2.2.2.2.2.2.2.2.1 (("A").data) 2 (by decide) (by decide),
    h.2.2.2.2.2.2.2.2.2 (("B").data) 3 (by decide) (by decide)⟩

/-! ## Plain-mention fallback theorems -/

theorem resolveLoop_error_of_unresolvable (members : List Member) (us : List Str)
    (h : ∃ u ∈ us, findMember members u = none) :
    ∃ u, resolveLoop members us = .error u ∧ findMember members u = none ∧ u ∈ us := by
  induction us with
  | nil =>
    obtain ⟨u, hu, _⟩ := h
    exact absurd hu (by simp)
  | cons v rest ih =>
    rcases hv : findMember members v with _ | m
    · refine ⟨v, ?_, hv, by simp⟩
      simp [resolveLoop, hv]
    · obtain ⟨u, hu, hnone⟩ := h
      rcases List.mem_cons.mp hu with he | hmem
      · subst he
        rw [hv] at hnone
        exact absurd hnone (by simp)
      · obtain ⟨u', herr, hn', hm'⟩ := ih ⟨u, hmem, hnone⟩
        refine ⟨u', ?_, hn', List.mem_cons_of_mem _ hm'⟩
        simp only [resolveLoop, hv, herr]
        rfl

/-- C6: when the (trimmed) command text has no platform-formatted mention
and at least one plain `@word` token, and some token resolves to no
directory member by case-sensitive exact match on login or display name,
the handler aborts with the private couldn't-find-user error for such a
token: no recipients are returned (partially resolved ones are discarded
with the outcome), nothing is announced publicly, nothing is appended to
the store, and the in-flight lock is released. -/
theorem plain_mention_unresolvable_aborts (st : LimiterState) (history : List KudosEvent)
    (userId cmdText channelId : Str) (members : List Member) (now : Nat) (sayOk : Bool)
    (hproc : userId ∉ st.usersProcessing)
    (hcool : ¬(0 < (lookupCooldown st.userCooldowns userId).getD 0 ∧
      now - (lookupCooldown st.userCooldowns userId).getD 0 < COOLDOWN_MS))
    (hnoproper : scanMentions (jsTrim cmdText) 0 = [])
    (hplain : scanPlain (jsTrim cmdText) 0 ≠ [])
    (hunres : ∃ u ∈ (scanPlain (jsTrim cmdText) 0).map (fun m => m.1.drop 1),
      findMember members u = none) :
    ∃ u, findMember members u = none ∧
      u ∈ (scanPlain (jsTrim cmdText) 0).map (fun m => m.1.drop 1) ∧
      handleTextKudosCommand st history userId cmdText channelId members now true sayOk =
        ⟨release ⟨setCooldown st.userCooldowns userId now, userId :: st.usersProcessing⟩ userId,
          history, none, .userNotFound u⟩ ∧
      (handleTextKudosCommand st history userId cmdText channelId members now true
        sayOk).state.usersProcessing = st.usersProcessing := by
  obtain ⟨u, herr, hnone, hmem⟩ := resolveLoop_error_of_unresolvable members _ hunres
  have ht : tryAcquire st userId now =
      .allowed ⟨setCooldown st.userCooldowns userId now, userId :: st.usersProcessing⟩ := by
    unfold tryAcquire
    rw [if_neg hproc]
    simp only
    rw [if_neg hcool]
  have hparse : parseRecipients (jsTrim cmdText) members true = .userNotFound u := by
    unfold parseRecipients
    rw [hnoproper]
    rw [if_neg (by simp)]
    rw [if_pos (List.length_pos.mpr hplain), if_pos rfl, herr]
  have hres : handleTextKudosCommand st history userId cmdText channelId members now true sayOk =
      ⟨release ⟨setCooldown st.userCooldowns userId now, userId :: st.usersProcessing⟩ userId,
        history, none, .userNotFound u⟩ := by
    unfold handleTextKudosCommand
    rw [ht, hparse]
  refine ⟨u, hnone, hmem, hres, ?_⟩
  rw [hres]
  exact release_cons_self hproc

/-- Witness for C6: `@alice hi` against an empty directory. -/
theorem plain_mention_unresolvable_aborts_witness :
    ∃ u, findMember [] u = none ∧
      u ∈ (scanPlain (jsTrim (("@alice hi").data)) 0).map (fun m => m.1.drop 1) ∧
      handleTextKudosCommand ⟨[], []⟩ [] (("U").data) (("@alice hi").data) (("C").data) []
          5 true true =
        ⟨release ⟨setCooldown [] (("U").data) 5, ("U").data :: []⟩ (("U").data),
          [], none, .userNotFound u⟩ ∧
      (handleTextKudosCommand ⟨[], []⟩ [] (("U").data) (("@alice hi").data) (("C").data) []
        5 true true).state.usersProcessing = ([] : List Str) :=
  plain_mention_unresolvable_aborts ⟨[], []⟩ [] (("U").data) (("@alice hi").data)
    (("C").data) [] 5 true (by decide) (by decide) (by decide) (by decide)
    (by decide)

/-! ## Display-suffix stripping lemmas -/

theorem stripMention_cons_keep {c : Char} (xs : Str) (h1 : c ≠ '<') (h2 : c ≠ '>') :
    stripMention (c :: xs) = c :: stripMention xs := by
  cases xs with
  | nil => simp [stripMention, h1, h2]
  | cons d rest => simp [stripMention, h1, h2]

theorem stripMention_append_keep {l : Str} (r : Str)
    (hl : ∀ c ∈ l, c ≠ '<' ∧ c ≠ '>') :
    stripMention (l ++ r) = l ++ stripMention r := by
  induction l with
  | nil => simp
  | cons c rest ih =>
    have hc := hl c (by simp)
    rw [List.cons_append, stripMention_cons_keep _ hc.1 hc.2,
      ih (fun d hd => hl d (by simp [hd])), List.cons_append]

theorem isIdChar_ne_brackets {c : Char} (h : isIdChar c = true) : c ≠ '<' ∧ c ≠ '>' := by
  constructor
  · intro he
    rw [he] at h
    exact absurd h (by decide)
  · intro he
    rw [he] at h
    exact absurd h (by decide)

theorem stripMention_piped_token (id disp : Str)
    (hid : ∀ c ∈ id, c ≠ '<' ∧ c ≠ '>') (hdisp : ∀ c ∈ disp, c ≠ '<' ∧ c ≠ '>') :
    stripMention ('<' :: '@' :: (id ++ '|' :: (disp ++ ['>']))) = id ++ '|' :: disp := by
  have h1 : stripMention ('<' :: '@' :: (id ++ '|' :: (disp ++ ['>']))) =
      stripMention (id ++ '|' :: (disp ++ ['>'])) := by
    cases id <;> simp [stripMention]
  rw [h1, stripMention_append_keep _ hid,
    stripMention_cons_keep _ (by decide) (by decide),
    stripMention_append_keep _ hdisp]
  have h2 : stripMention ['>'] = [] := rfl
  rw [h2]
  simp

theorem jsTrim_lt_thanks (tokTail : Str) :
    jsTrim (('<' :: tokTail) ++ (" thanks").data) = ('<' :: tokTail) ++ (" thanks").data := by
  unfold jsTrim
  have h1 : (('<' :: tokTail) ++ (" thanks").data).dropWhile isWS =
      ('<' :: tokTail) ++ (" thanks").data := by
    rw [List.cons_append, List.dropWhile_cons, if_neg (by decide)]
  rw [h1]
  have h2 : (('<' :: tokTail) ++ (" thanks").data).reverse =
      's' :: (("knaht ").data ++ ('<' :: tokTail).reverse) := by
    rw [List.reverse_append]
    have h3 : ((" thanks").data).reverse = 's' :: ("knaht ").data := by decide
    rw [h3, List.cons_append]
  rw [h2, List.dropWhile_cons, if_neg (by decide), ← h2, List.reverse_reverse]

theorem WFTok_head_lt {tok : Str} (h : WFTok tok) : ∃ t, tok = '<' :: t := by
  obtain ⟨ids, _, _, hcase⟩ := h
  rcases hcase with htok | ⟨ds, _, _, htok⟩ <;> exact ⟨_, htok⟩

theorem scanMentions_token_thanks {tok : Str} (hwf : WFTok tok) :
    scanMentions (tok ++ (" thanks").data) 0 = [(tok, 0)] := by
  obtain ⟨t, ht⟩ := WFTok_head_lt hwf
  have hm : matchMentionAt (tok ++ (" thanks").data) = some tok :=
    matchMentionAt_of_WFTok hwf ((" thanks").data)
  have hcons : scanMentions (tok ++ (" thanks").data) 0 =
      (tok, 0) :: scanMentions ((tok ++ (" thanks").data).drop tok.length) (0 + tok.length) := by
    rw [ht, List.cons_append, scanMentions_cons]
    rw [← List.cons_append, ← ht, hm]
  rw [hcons, List.drop_left, scanMentions_shift]
  have hempty : scanMentions ((" thanks").data) 0 = [] := by decide
  rw [hempty]
  rfl

theorem parseRecipients_token_thanks {tok : Str} (hwf : WFTok tok)
    (members : List Member) (lookupOk : Bool) :
    parseRecipients (tok ++ (" thanks").data) members lookupOk =
      .ok [tok] (("thanks").data) := by
  have hscan := scanMentions_token_thanks hwf
  unfold parseRecipients
  rw [hscan, if_pos (by simp)]
  have hgld : ([(tok, 0)] : List (Str × Nat)).getLastD ([], 0) = (tok, 0) := rfl
  rw [hgld]
  have hli : jsLastIndexOf (tok ++ (" thanks").data) tok = ((0 : Nat) : Int) := by
    have h := @jsLastIndexOf_getLast (tok ++ (" thanks").data) [(tok, 0)] hscan (by simp)
    simpa using h
  simp only
  rw [hli]
  have hsub : jsSubstringFrom (tok ++ (" thanks").data)
      (((0 : Nat) : Int) + (tok.length : Int)) = (" thanks").data := by
    show (tok ++ (" thanks").data).drop ((((0 : Nat) : Int) + (tok.length : Int)).toNat) = _
    have harg : ((((0 : Nat) : Int)) + ((tok.length : Nat) : Int)).toNat = tok.length := by omega
    rw [harg, List.drop_left]
  rw [hsub]
  have htrim : jsTrim ((" thanks").data) = ("thanks").data := by decide
  rw [htrim]
  rfl

theorem handleText_posted {st st1 : LimiterState} {userId cmdText : Str}
    {members : List Member} {now : Nat} {lookupOk : Bool} {recips : List Str} {msg : Str}
    (ht : tryAcquire st userId now = .allowed st1)
    (hp : parseRecipients (jsTrim cmdText) members lookupOk = .ok recips msg)
    (hrne : ¬recips.length = 0) (hmne : ¬msg = [])
    (history : List KudosEvent) (channelId : Str) :
    handleTextKudosCommand st history userId cmdText channelId members now lookupOk true =
      ⟨release st1 userId,
        history ++ [⟨now, userId, recips.map stripMention, msg, channelId⟩],
        some (announceText userId (formatRecipients recips) msg), .posted⟩ := by
  unfold handleTextKudosCommand
  rw [ht, hp]
  show (if recips.length = 0 then
      (⟨release st1 userId, history, none, .noRecipients⟩ : TextResult)
    else if msg = [] then ⟨release st1 userId, history, none, .emptyMessage⟩
    else if true = true then
      ⟨release st1 userId,
        history ++ [⟨now, userId, recips.map stripMention, msg, channelId⟩],
        some (announceText userId (formatRecipients recips) msg), .posted⟩
    else ⟨release st1 userId, history, none, .genericError⟩) = _
  rw [if_neg hrne, if_neg hmne, if_pos rfl]

theorem handleModal_posted {st st1 : LimiterState} {userId : Str}
    {recipients : List Str} {message : Str} {now : Nat}
    (ht : tryAcquire st userId now = .allowed st1)
    (hrne : ¬recipients.length = 0) (hmne : ¬jsTrim message = [])
    (history : List KudosEvent) (channelId : Str) :
    handleModalSubmission st history userId channelId recipients message now true =
      ⟨release st1 userId, history ++ [⟨now, userId, recipients, message, channelId⟩],
        some (announceText userId
          (formatRecipients (recipients.map (fun id => '<' :: '@' :: (id ++ ['>'])))) message),
        .posted⟩ := by
  unfold handleModalSubmission
  rw [ht]
  show modalLocked st1 history userId channelId recipients message now true = _
  unfold modalLocked
  rw [if_neg hrne, if_neg hmne, if_pos rfl]

/-- C3: a quick-send whose mention token carries a display-name suffix
(`<@id|disp>`) records the recipient with the suffix still attached
(`id|disp`, because the recorded value is the token with only `<@` and `>`
stripped), while a modal submission for the same person records the bare
`id`; the stats aggregator therefore keeps two distinct receiver counters,
one per spelling.  (The id is a nonempty `[A-Z0-9]` run and the display part
is nonempty without `>` — the token shape — and without `<`, so that the
`<@`-deletion pass leaves it intact.) -/
theorem display_suffix_distinct_receivers (id disp uidQ uidM ch : Str)
    (hidne : id ≠ []) (hidc : ∀ c ∈ id, isIdChar c = true)
    (hdne : disp ≠ []) (hdgt : ∀ c ∈ disp, c ≠ '>') (hdlt : ∀ c ∈ disp, c ≠ '<') :
    (handleTextKudosCommand ⟨[], []⟩ [] uidQ
        (('<' :: '@' :: (id ++ '|' :: (disp ++ ['>']))) ++ (" thanks").data)
        ch [] 1 true true).history =
      [⟨1, uidQ, [id ++ '|' :: disp], ("thanks").data, ch⟩] ∧
    (handleTextKudosCommand ⟨[], []⟩ [] uidQ
        (('<' :: '@' :: (id ++ '|' :: (disp ++ ['>']))) ++ (" thanks").data)
        ch [] 1 true true).outcome = .posted ∧
    (handleModalSubmission ⟨[], []⟩ [] uidM ch [id] (("thanks").data) 1 true).history =
      [⟨1, uidM, [id], ("thanks").data, ch⟩] ∧
    (handleModalSubmission ⟨[], []⟩ [] uidM ch [id] (("thanks").data) 1 true).outcome =
      .posted ∧
    receiverCounts [⟨1, uidQ, [id ++ '|' :: disp], ("thanks").data, ch⟩,
        ⟨1, uidM, [id], ("thanks").data, ch⟩] =
      [(id ++ '|' :: disp, 1), (id, 1)] ∧
    id ++ '|' :: disp ≠ id := by
  have hwf : WFTok ('<' :: '@' :: (id ++ '|' :: (disp ++ ['>']))) :=
    ⟨id, hidne, hidc, Or.inr ⟨disp, hdne, hdgt, rfl⟩⟩
  have hne : id ++ '|' :: disp ≠ id := by
    intro h
    have hlen := congrArg List.length h
    simp only [List.length_append, List.length_cons] at hlen
    omega
  have htQ : tryAcquire ⟨[], []⟩ uidQ 1 =
      .allowed ⟨setCooldown [] uidQ 1, [uidQ]⟩ := by
    unfold tryAcquire
    rw [if_neg (by simp)]
    simp only
    rw [if_neg (by simp [lookupCooldown])]
  have htM : tryAcquire ⟨[], []⟩ uidM 1 =
      .allowed ⟨setCooldown [] uidM 1, [uidM]⟩ := by
    unfold tryAcquire
    rw [if_neg (by simp)]
    simp only
    rw [if_neg (by simp [lookupCooldown])]
  have htrim : jsTrim ((('<' :: '@' :: (id ++ '|' :: (disp ++ ['>'])))) ++ (" thanks").data) =
      ('<' :: '@' :: (id ++ '|' :: (disp ++ ['>']))) ++ (" thanks").data :=
    jsTrim_lt_thanks ('@' :: (id ++ '|' :: (disp ++ ['>'])))
  have hp : parseRecipients
      (jsTrim ((('<' :: '@' :: (id ++ '|' :: (disp ++ ['>'])))) ++ (" thanks").data)) [] true =
      .ok [('<' :: '@' :: (id ++ '|' :: (disp ++ ['>'])))] (("thanks").data) := by
    rw [htrim]
    exact parseRecipients_token_thanks hwf [] true
  have hstrip : stripMention ('<' :: '@' :: (id ++ '|' :: (disp ++ ['>']))) =
      id ++ '|' :: disp :=
    stripMention_piped_token id disp (fun c hc => isIdChar_ne_brackets (hidc c hc))
      (fun c hc => ⟨hdlt c hc, hdgt c hc⟩)
  have hq := handleText_posted htQ hp (by simp) (by decide) [] ch
  have hm := @handleModal_posted ⟨[], []⟩ ⟨setCooldown [] uidM 1, [uidM]⟩ uidM [id]
    (("thanks").data) 1 htM (by simp) (by decide) [] ch
  refine ⟨?_, ?_, ?_, ?_, ?_, hne⟩
  · rw [hq]
    simp only [List.map_cons, List.map_nil, hstrip]
    rfl
  · rw [hq]
  · rw [hm]
    rfl
  · rw [hm]
  · unfold receiverCounts
    show bumpCount (bumpCount [] (id ++ '|' :: disp)) id = _
    have h1 : bumpCount [] (id ++ '|' :: disp) = [(id ++ '|' :: disp, 1)] := rfl
    have h2 : bumpCount [(id ++ '|' :: disp, 1)] id =
        if (id ++ '|' :: disp, 1).1 = id then ((id ++ '|' :: disp, 1).1, 2) :: []
        else (id ++ '|' :: disp, 1) :: bumpCount [] id := rfl
    rw [h1, h2]
    dsimp only
    rw [if_neg hne]
    rfl

/-- Witness for C3 with the claim's own example `<@U123|bob>`. -/
theorem display_suffix_distinct_receivers_witness :
    (handleTextKudosCommand ⟨[], []⟩ [] (("S1").data)
        (('<' :: '@' :: ((("U123").data) ++ '|' :: ((("bob").data) ++ ['>']))) ++
          (" thanks").data) (("C").data) [] 1 true true).history =
      [⟨1, ("S1").data, [(("U123").data) ++ '|' :: (("bob").data)], ("thanks").data,
        ("C").data⟩] ∧
    receiverCounts [⟨1, ("S1").data, [(("U123").data) ++ '|' :: (("bob").data)],
        ("thanks").data, ("C").data⟩,
        ⟨1, ("S2").data, [("U123").data], ("thanks").data, ("C").data⟩] =
      [((("U123").data) ++ '|' :: (("bob").data), 1), (("U123").data, 1)] ∧
    (("U123").data) ++ '|' :: (("bob").data) ≠ ("U123").data := by
  have h := display_suffix_distinct_receivers (("U123").data) (("bob").data)
    (("S1").data) (("S2").data) (("C").data)
    (by decide) (by decide) (by decide) (by decide) (by decide)
  exact ⟨h.1, h.2.2.2.2.1, h.2.2.2.2.2⟩
